import Mathlib

/-!
Verification of the search engine of the `code-explorer-pro` repository.

Lines and queries are modelled as `List Char` (JS strings are sequences of
UTF-16 code units; all the characters the matchers inspect are plain code
points, so a list of characters is a faithful model).  Each definition below
embeds one function of the source; doc comments name the file and lines it
comes from.  Fuel-based recursion is used for the JS `while` loops; the fuel
arguments are always large enough for the loop to run to completion, which
the lemmas prove.
-/

namespace CodeExplorer

/-- The character class `[A-Za-z0-9_]` used by the word-boundary regex built in
`src/extension.ts` line 367 (`(?<![A-Za-z0-9_])…(?![A-Za-z0-9_])`). -/
def isIdentCharNoDollar (c : Char) : Bool :=
  (('A' ≤ c) && (c ≤ 'Z')) || (('a' ≤ c) && (c ≤ 'z')) ||
  (('0' ≤ c) && (c ≤ '9')) || (c == '_')

/-- The character class `[A-Za-z0-9_$]` used by `findAllWordHits` in
`src/core/analysis.ts` line 27, and also the identifier-continuation class
`[A-Za-z0-9_$]` of the tokenizer regex in `extractSymbolsFromLine`. -/
def isIdentCharDollar (c : Char) : Bool :=
  isIdentCharNoDollar c || (c == '$')

/-- `occursAtB line w c` holds when `w` occurs in `line` as a substring
starting at index `c` (JS `line.slice(c, c + w.length) === w`). -/
def occursAtB (line w : List Char) (c : Nat) : Bool :=
  decide ((line.drop c).take w.length = w)

/-- Generic linear search: smallest `c ≥ pos` with `t c = true`, scanning at
most `fuel` positions.  Used to embed `String.prototype.indexOf` and the
left-to-right attempt order of the JS regex engine (`RegExp.exec`). -/
def searchFrom (t : Nat → Bool) : Nat → Nat → Option Nat
  | _, 0 => none
  | pos, fuel + 1 => if t pos then some pos else searchFrom t (pos + 1) fuel

/-- JS `line.indexOf(w, start)`: first occurrence of `w` in `line` at an index
`≥ start`, or `none` (JS returns `-1`). -/
def indexOfFrom (line w : List Char) (start : Nat) : Option Nat :=
  searchFrom (occursAtB line w) start (line.length + 1 - start)

/-- Loop body of `findAllTextHits` (`src/core/analysis.ts` lines 40-47):
`while (from <= line.length - query.length) { idx = line.indexOf(query, from);
if (idx === -1) break; hits.push(idx); from = idx + 1; }`. -/
def findAllTextHitsGo (line w : List Char) : Nat → Nat → List Nat
  | _, 0 => []
  | start, fuel + 1 =>
    if start + w.length ≤ line.length then
      match indexOfFrom line w start with
      | none => []
      | some c => c :: findAllTextHitsGo line w (c + 1) fuel
    else []

/-- `findAllTextHits` from `src/core/analysis.ts` lines 38-49: all raw
substring occurrences, resuming at `idx + 1` after each hit (the guard
`if (!query) return []` is the `w.isEmpty` test). -/
def findAllTextHits (line w : List Char) : List Nat :=
  if w.isEmpty then [] else findAllTextHitsGo line w 0 (line.length + 1)

/-- Loop body of the substring branch of `processFile`
(`src/core/parallelSearch.ts` lines 179-195): `while (true) { idxFound =
line.indexOf(symbol, from); if (idxFound === -1) break; …;
from = idxFound + symbol.length; }` — note the resume point is
`idxFound + symbol.length`, not `idxFound + 1`. -/
def scanTextHitsGo (line w : List Char) : Nat → Nat → List Nat
  | _, 0 => []
  | start, fuel + 1 =>
    match indexOfFrom line w start with
    | none => []
    | some c => c :: scanTextHitsGo line w (c + w.length) fuel

/-- The start columns produced for one line by the substring branch of
`processFile` in `src/core/parallelSearch.ts`. -/
def scanTextHits (line w : List Char) : List Nat :=
  scanTextHitsGo line w 0 (line.length + 1)

/-- Right word-boundary test: position `c + w.length` is at the end of the
line or holds a character outside the class `p` (the `(?![class])` lookahead
of both word regexes). -/
def rightBoundaryOk (p : Char → Bool) (line w : List Char) (c : Nat) : Bool :=
  decide (line.length ≤ c + w.length) || !(p (line.getD (c + w.length) ' '))

/-- Left word-boundary test: `c` is at the start of the line or the previous
character is outside the class `p` (the `(^|[^class])` group of
`findAllWordHits`, resp. the `(?<![class])` lookbehind of the scanner). -/
def leftBoundaryOk (p : Char → Bool) (line : List Char) : Nat → Bool
  | 0 => true
  | c + 1 => !(p (line.getD c ' '))

/-- Both boundary tests at once: an occurrence at `c` is not adjacent to a
character of class `p` on either side. -/
def boundaryOk (p : Char → Bool) (line w : List Char) (c : Nat) : Bool :=
  leftBoundaryOk p line c && rightBoundaryOk p line w c

/-- One attempt of the JS regex `(^|[^A-Za-z0-9_$])(w)(?![A-Za-z0-9_$])` at
attempt position `s` (`findAllWordHits`, `src/core/analysis.ts` line 27).
The engine first tries the `^` alternative (only at absolute position 0,
there is no `m` flag), then the `[^…]` alternative which consumes one
boundary character, so the reported hit column is `s + 1` in that case
(`m.index + m[1].length`, line 31). -/
def wordAttemptAt (line w : List Char) (s : Nat) : Option Nat :=
  if (s == 0) && occursAtB line w 0 && rightBoundaryOk isIdentCharDollar line w 0 then
    some 0
  else if decide (s < line.length) && !(isIdentCharDollar (line.getD s ' ')) &&
      occursAtB line w (s + 1) && rightBoundaryOk isIdentCharDollar line w (s + 1) then
    some (s + 1)
  else none

/-- Leftmost successful attempt of the `findAllWordHits` regex at a position
`≥ pos` (the behaviour of `re.exec` with `re.lastIndex = pos`). -/
def wordSearchFrom (line w : List Char) : Nat → Nat → Option Nat
  | _, 0 => none
  | s, fuel + 1 =>
    match wordAttemptAt line w s with
    | some c => some c
    | none => wordSearchFrom line w (s + 1) fuel

/-- Exec loop of `findAllWordHits` (`src/core/analysis.ts` lines 28-33).
After a match reporting column `c`, `re.lastIndex` is the end of the matched
text, which is `c + w.length` for both alternatives. -/
def findAllWordHitsGo (line w : List Char) : Nat → Nat → List Nat
  | _, 0 => []
  | pos, fuel + 1 =>
    match wordSearchFrom line w pos (line.length + 1 - pos) with
    | none => []
    | some c => c :: findAllWordHitsGo line w (c + w.length) fuel

/-- `findAllWordHits` from `src/core/analysis.ts` lines 25-35 (the guard
`if (!word) return []` is the `w.isEmpty` test; `escapeRegExp` makes the
query match literally, which the embedding does by construction). -/
def findAllWordHits (line w : List Char) : List Nat :=
  if w.isEmpty then [] else findAllWordHitsGo line w 0 (line.length + 1)

/-- One attempt of the scanner word regex
`(?<![A-Za-z0-9_])w(?![A-Za-z0-9_])` (`src/extension.ts` line 367, used by
the word branch of `processFile`, `src/core/parallelSearch.ts` lines
161-177).  Lookbehind and lookahead are zero-width, so the hit column equals
the attempt position. -/
def scanWordAttemptAt (line w : List Char) (s : Nat) : Bool :=
  occursAtB line w s && boundaryOk isIdentCharNoDollar line w s

/-- Exec loop of the word branch of `processFile`: after a match at `c`,
`lastIndex` is `c + w.length` (the match text is exactly `w`). -/
def scanWordHitsGo (line w : List Char) : Nat → Nat → List Nat
  | _, 0 => []
  | pos, fuel + 1 =>
    match searchFrom (scanWordAttemptAt line w) pos (line.length + 1 - pos) with
    | none => []
    | some c => c :: scanWordHitsGo line w (c + w.length) fuel

/-- The start columns produced for one line by the word branch of
`processFile` in `src/core/parallelSearch.ts`. -/
def scanWordHits (line w : List Char) : List Nat :=
  scanWordHitsGo line w 0 (line.length + 1)

/-- All substring occurrence columns of `w` in `line`, ascending — the
specification-level description of substring matching
(spec §8: "the set of `i` such that `L[i:i+len(Q)] == Q`"). -/
def allOccs (line w : List Char) : List Nat :=
  (List.range (line.length + 1 - w.length)).filter (occursAtB line w)

/-- Modelled from the spec (§4.1): greedy non-overlapping selection — keep a
column when it does not overlap the previously kept hit of length `len`
(the next search resumes at `i + len`). -/
def nonOverlapSelect (len : Nat) : List Nat → Nat → List Nat
  | [], _ => []
  | c :: rest, lo =>
    if lo ≤ c then c :: nonOverlapSelect len rest (c + len)
    else nonOverlapSelect len rest lo

/-- Reference form of the matcher loops: repeatedly take the first element of
`xs` that is `≥ lo`, then raise `lo` to the hit plus `len`.  Each concrete
loop is proved equal to this. -/
def greedyPick (len : Nat) (xs : List Nat) : Nat → Nat → List Nat
  | _, 0 => []
  | lo, fuel + 1 =>
    match (xs.filter (fun c => decide (lo ≤ c))).head? with
    | none => []
    | some c => c :: greedyPick len xs (c + len) fuel

/-- Specification-level description of word matching: the occurrence columns
whose occurrence is not adjacent to a character of class `p` on either side
(spec §4.1: "not preceded or followed by an alphanumeric character or
underscore or currency-sign-class identifier character"). -/
def validOccs (p : Char → Bool) (line w : List Char) : List Nat :=
  (allOccs line w).filter (boundaryOk p line w)

/-- JS `s.slice(a, b)` for already-clamped nonnegative arguments: the
characters of `s` with indices in `[a, b)`. -/
def jsSlice (s : List Char) (a b : Nat) : List Char :=
  (s.take b).drop a

/-- `createPreview` from `src/core/analysis.ts` lines 3-8:
`line.slice(Math.max(0, startCol - 40), startCol)` (Nat subtraction saturates
at 0, which is exactly `Math.max(0, …)`), then
`line.slice(startCol, startCol + len)`, then
`line.slice(startCol + len, Math.min(line.length, startCol + len + 40))`. -/
def createPreview (line : List Char) (startCol len : Nat) : List Char :=
  jsSlice line (startCol - 40) startCol ++
  jsSlice line startCol (startCol + len) ++
  jsSlice line (startCol + len) (min line.length (startCol + len + 40))

/-- The identifier-start class `[A-Za-z_$]` of the tokenizer regex in
`extractSymbolsFromLine` (`src/core/analysis.ts` line 12). -/
def isIdentStartChar (c : Char) : Bool :=
  (('A' ≤ c) && (c ≤ 'Z')) || (('a' ≤ c) && (c ≤ 'z')) || (c == '_') || (c == '$')

/-- The token stream of the global regex `/[A-Za-z_$][A-Za-z0-9_$]*/g`
(`src/core/analysis.ts` lines 12-16): maximal runs starting with a
`[A-Za-z_$]` character and continuing with `[A-Za-z0-9_$]` characters,
scanned left to right.  A continuation-only character (a digit) at a
non-token position cannot start a match and is skipped, which is exactly
the regex engine's behaviour. -/
def tokenizeIdents : List Char → List (List Char)
  | [] => []
  | c :: rest =>
    if isIdentStartChar c then
      (c :: rest.takeWhile isIdentCharDollar) ::
        tokenizeIdents (rest.dropWhile isIdentCharDollar)
    else tokenizeIdents rest
termination_by l => l.length
decreasing_by
  · simp only [List.length_cons]
    exact Nat.lt_succ_of_le ((List.dropWhile_sublist _).length_le)
  · simp

/-- The keyword set `JS_TS_KEYWORDS` from `src/core/analysis.ts` lines
55-57, verbatim. -/
def JS_TS_KEYWORDS : List (List Char) :=
  ["const".toList, "let".toList, "var".toList, "function".toList,
   "return".toList, "if".toList, "else".toList, "for".toList,
   "while".toList, "switch".toList, "case".toList, "break".toList,
   "continue".toList, "class".toList, "extends".toList, "new".toList,
   "try".toList, "catch".toList, "finally".toList, "throw".toList,
   "import".toList, "from".toList, "export".toList, "default".toList,
   "as".toList, "implements".toList, "interface".toList, "public".toList,
   "private".toList, "protected".toList, "readonly".toList,
   "static".toList, "super".toList, "this".toList, "typeof".toList,
   "instanceof".toList, "in".toList, "of".toList, "delete".toList,
   "void".toList, "yield".toList, "await".toList, "do".toList,
   "with".toList, "package".toList, "namespace".toList, "enum".toList,
   "type".toList]

/-- The `while ((m = re.exec(line)))` filter loop of `extractSymbolsFromLine`
(`src/core/analysis.ts` lines 15-21): drop the excluded token and keywords,
and insert into a JS `Set`, which keeps first-insertion order — modelled by
the accumulator `acc`. -/
def collectSymbols (exclude : List Char) : List (List Char) → List (List Char) → List (List Char)
  | [], acc => acc
  | t :: ts, acc =>
    if t = exclude then collectSymbols exclude ts acc
    else if t ∈ JS_TS_KEYWORDS then collectSymbols exclude ts acc
    else if t ∈ acc then collectSymbols exclude ts acc
    else collectSymbols exclude ts (acc ++ [t])

/-- `extractSymbolsFromLine` from `src/core/analysis.ts` lines 10-23:
tokenize, filter, deduplicate in first-seen order, then
`Array.from(set).slice(0, 20)`. -/
def extractSymbolsFromLine (line exclude : List Char) : List (List Char) :=
  (collectSymbols exclude (tokenizeIdents line) []).take 20

/-- Specification-level first-seen deduplication: keep the first copy of each
element, in order. -/
def dedupKeepFirst {α : Type} [DecidableEq α] : List α → List α
  | [] => []
  | x :: xs => x :: dedupKeepFirst (xs.filter (fun y => decide (y ≠ x)))
termination_by l => l.length
decreasing_by
  exact Nat.lt_succ_of_le (List.length_filter_le _ _)

/-- The 1 MiB size threshold of `categorizeFiles`
(`src/core/parallelSearch.ts` line 65). -/
def largeFileSizeThreshold : Nat := 1024 * 1024

/-- The batched stat-and-partition loop of `categorizeFiles`
(`src/core/parallelSearch.ts` lines 69-93): slice off 100 files, stat them
(`Promise.all` preserves the batch order), and append each file to the
`large` group when `size > threshold`, otherwise to the `regular` group. -/
def categorizeGo {α : Type} (sizeOf : α → Nat) : List α → List α × List α → List α × List α
  | files, (reg, lg) =>
    if files.isEmpty then (reg, lg)
    else
      categorizeGo sizeOf (files.drop 100)
        (reg ++ (((files.take 100).map (fun u => (u, sizeOf u))).filter
            (fun p => !(decide (largeFileSizeThreshold < p.2)))).map Prod.fst,
         lg ++ (((files.take 100).map (fun u => (u, sizeOf u))).filter
            (fun p => decide (largeFileSizeThreshold < p.2))).map Prod.fst)
termination_by files => files.length
decreasing_by
  rename_i hne
  simp only [List.length_drop]
  have : files.length ≠ 0 := by
    simpa [List.isEmpty_iff, List.length_eq_zero] using hne
  omega

/-- The per-file stat of `categorizeFiles` (`src/core/parallelSearch.ts`
lines 74-82): a failed stat (`stat u = none`) is caught, a warning is
logged, and the size is taken to be 0. -/
def statSize {α : Type} (stat : α → Option Nat) (u : α) : Nat :=
  (stat u).getD 0

/-- `categorizeFiles` from `src/core/parallelSearch.ts` lines 61-97. -/
def categorizeFiles {α : Type} (stat : α → Option Nat) (files : List α) : List α × List α :=
  categorizeGo (statSize stat) files ([], [])

/-- The split `text.split(/\r?\n/)` of `processFile`
(`src/core/parallelSearch.ts` line 153): separators are `"\n"` or `"\r\n"`
(a lone `"\r"` is not a separator). -/
def splitLinesGo : List Char → List Char → List (List Char)
  | [], acc => [acc.reverse]
  | '\r' :: '\n' :: rest, acc => acc.reverse :: splitLinesGo rest []
  | '\n' :: rest, acc => acc.reverse :: splitLinesGo rest []
  | c :: rest, acc => splitLinesGo rest (c :: acc)

/-- `text.split(/\r?\n/)` as a list of lines. -/
def splitLines (text : List Char) : List (List Char) :=
  splitLinesGo text []

/-- The match mode of a search request (`'word' | 'text'`). -/
inductive MatchMode : Type
  | word : MatchMode
  | text : MatchMode
deriving DecidableEq

/-- One reference hit as built by `processFile`: location (file, 0-based
line, 0-based start column), the preview string, and the inline symbols
extracted from the line. -/
structure RefNode : Type where
  file : String
  line : Nat
  col : Nat
  preview : List Char
  symbols : List (List Char)
deriving DecidableEq

/-- The per-line matcher used inside `processFile`
(`src/core/parallelSearch.ts` lines 161-196): the word branch runs the
`wordRegex` exec loop, the text branch runs the `indexOf` loop. -/
def lineHits (mode : MatchMode) (line symbol : List Char) : List Nat :=
  match mode with
  | .word => scanWordHits line symbol
  | .text => scanTextHits line symbol

/-- The hits `processFile` produces for one line. -/
def lineNodes (mode : MatchMode) (symbol : List Char) (uri : String)
    (lineNum : Nat) (line : List Char) : List RefNode :=
  (lineHits mode line symbol).map (fun startCol =>
    { file := uri, line := lineNum, col := startCol,
      preview := createPreview line startCol symbol.length,
      symbols := extractSymbolsFromLine line symbol })

/-- `processFile` from `src/core/parallelSearch.ts` lines 148-207: read the
file (`readFile uri = none` models a read/decode failure, which the
`try`/`catch` turns into an empty batch plus a logged warning), split into
lines, truncate to `maxLinesPerFile`, skip falsy (empty) lines, and collect
the per-line hits in line order. -/
def processFile (readFile : String → Option (List Char)) (mode : MatchMode)
    (symbol : List Char) (maxLinesPerFile : Nat) (uri : String) : List RefNode :=
  match readFile uri with
  | none => []
  | some text =>
    let lines := splitLines text
    let limit := min lines.length maxLinesPerFile
    ((List.range limit).map (fun lineNum =>
      let line := lines.getD lineNum []
      if line.isEmpty then []
      else lineNodes mode symbol uri lineNum line)).flatten

/-- Sequential model of `processFileGroup` (`src/core/parallelSearch.ts`
lines 102-143) without cancellation: scan each file of the group in order
and accumulate the batches (cooperative single-threaded workers interleave
whole files, so the accumulated result is the concatenation of per-file
batches). -/
def processFileGroup (readFile : String → Option (List Char)) (mode : MatchMode)
    (symbol : List Char) (maxLinesPerFile : Nat) : List String → List RefNode
  | [] => []
  | u :: rest =>
    processFile readFile mode symbol maxLinesPerFile u ++
      processFileGroup readFile mode symbol maxLinesPerFile rest

/-- A hit's identity key `(file, line, column)` — the code builds the string
`` `${fsPath}:${ln}:${col}` `` (`src/extension.ts` line 684); since the line
and column render as decimal numerals (no `:`), that encoding is injective
in the triple, so the triple is a faithful model of the key. -/
def refKey (n : RefNode) : String × Nat × Nat :=
  (n.file, n.line, n.col)

/-- The aggregator state of `findRecursiveReferences`
(`src/extension.ts` lines 486, 679-696): the request-scoped `seen` set and
the `byFile` map (a JS `Map`, which preserves key insertion order). -/
structure AggState : Type where
  seen : List (String × Nat × Nat)
  byFile : List (String × List RefNode)

/-- `byFile.set(fsPath, arr)` with `arr.push(node)`: append the node to its
file's group, creating the group at the end of the map if absent. -/
def insertByFile : List (String × List RefNode) → RefNode → List (String × List RefNode)
  | [], n => [(n.file, [n])]
  | (f, arr) :: rest, n =>
    if f = n.file then (f, arr ++ [n]) :: rest
    else (f, arr) :: insertByFile rest n

/-- The per-hit body of the `onBatch` callback (`src/extension.ts` lines
681-689): compute the key, discard if seen, otherwise record it and add the
node to its file group. -/
def aggAddHit (st : AggState) (n : RefNode) : AggState :=
  if refKey n ∈ st.seen then st
  else { seen := refKey n :: st.seen, byFile := insertByFile st.byFile n }

/-- Process one delivered batch (`for (const node of batch)`). -/
def aggAddBatch (st : AggState) (batch : List RefNode) : AggState :=
  batch.foldl aggAddHit st

/-- Process a whole request: every batch in delivery order, starting from
the empty `seen` set and empty `byFile` map. -/
def aggRun (batches : List (List RefNode)) : AggState :=
  batches.foldl aggAddBatch ⟨[], []⟩

/-- The final result list (`src/extension.ts` lines 699-701):
`for (const arr of byFile.values()) finalLines.push(...arr)`. -/
def finalLines (st : AggState) : List RefNode :=
  (st.byFile.map Prod.snd).flatten

/-- The worker loop of `processFileGroup` (`src/core/parallelSearch.ts`
lines 110-138), one worker: check the cancellation flag, claim the next
index (`const myIdx = idx++`), stop if out of range, scan the file
(modelled as taking one time unit), deliver its batch, then apply the
elapsed-time guard (`Date.now() - t0 > maxSearchMs`) before looping.
Returns the claim events `(fileIdx, claimTime, batch)`. -/
def workerLoop {α β : Type} (isCancelled elapsedOver : Nat → Bool)
    (scanFile : α → β) (group : List α) : Nat → Nat → Nat → List (Nat × Nat × β)
  | _, _, 0 => []
  | idx, t, fuel + 1 =>
    if isCancelled t then []
    else if h : idx < group.length then
      (idx, t, scanFile (group.get ⟨idx, h⟩)) ::
        (if elapsedOver (t + 1) then []
         else workerLoop isCancelled elapsedOver scanFile group (idx + 1) (t + 1) fuel)
    else []

/-! ## Basic facts about occurrences -/

lemma occursAtB_length {line w : List Char} {c : Nat} (hw : w ≠ [])
    (h : occursAtB line w c = true) : c + w.length ≤ line.length := by
  have h' : (line.drop c).take w.length = w := by simpa [occursAtB] using h
  have hlen := congrArg List.length h'
  simp only [List.length_take, List.length_drop] at hlen
  have hpos : 0 < w.length := List.length_pos.mpr hw
  rcases Nat.le_total w.length (line.length - c) with h1 | h1
  · omega
  · rw [Nat.min_eq_right h1] at hlen
    omega

lemma occursAtB_getD {line w : List Char} {c : Nat} (h : occursAtB line w c = true)
    {i : Nat} (hi : i < w.length) (d : Char) : line.getD (c + i) d = w.getD i d := by
  have h' : (line.drop c).take w.length = w := by simpa [occursAtB] using h
  conv_rhs => rw [← h']
  rw [List.getD_eq_getElem?_getD, List.getD_eq_getElem?_getD,
    List.getElem?_take, if_pos hi, List.getElem?_drop]

lemma mem_allOccs {line w : List Char} (hw : w ≠ []) {c : Nat} :
    c ∈ allOccs line w ↔ occursAtB line w c = true := by
  simp only [allOccs, List.mem_filter, List.mem_range]
  refine ⟨fun h => h.2, fun h => ⟨?_, h⟩⟩
  have := occursAtB_length hw h
  have hpos : 0 < w.length := List.length_pos.mpr hw
  omega

lemma allOccs_pairwise (line w : List Char) : (allOccs line w).Pairwise (· < ·) :=
  (List.pairwise_lt_range _).filter _

lemma allOccs_length_lt {line w : List Char} (hw : w ≠ []) :
    (allOccs line w).length < line.length + 1 := by
  have h1 : (allOccs line w).length ≤ (List.range (line.length + 1 - w.length)).length :=
    List.length_filter_le _ _
  rw [List.length_range] at h1
  have hpos : 0 < w.length := List.length_pos.mpr hw
  omega

/-! ## The linear searches return the first qualifying position -/

lemma head?_eq_some_of_min {xs : List Nat} {c : Nat} (hs : xs.Pairwise (· < ·))
    (hc : c ∈ xs) (hmin : ∀ d ∈ xs, c ≤ d) : xs.head? = some c := by
  cases xs with
  | nil => cases hc
  | cons a t =>
    rcases List.mem_cons.1 hc with rfl | hct
    · rfl
    · have h1 : a < c := List.rel_of_pairwise_cons hs hct
      have h2 : c ≤ a := hmin a (List.mem_cons_self a t)
      omega

lemma searchFrom_eq_head? (t : Nat → Bool) (n : Nat) (hb : ∀ c, t c = true → c < n) :
    ∀ fuel pos, n ≤ pos + fuel →
      searchFrom t pos fuel =
        (((List.range n).filter t).filter (fun c => decide (pos ≤ c))).head? := by
  intro fuel
  induction fuel with
  | zero =>
    intro pos hpos
    have hnil : ((List.range n).filter t).filter (fun c => decide (pos ≤ c)) = [] := by
      rw [List.filter_eq_nil_iff]
      intro a ha
      have hat : t a = true := (List.mem_filter.1 ha).2
      have := hb a hat
      simp only [decide_eq_true_eq]
      omega
    rw [searchFrom, hnil]
    rfl
  | succ fuel ih =>
    intro pos hpos
    rw [searchFrom]
    by_cases ht : t pos = true
    · rw [if_pos ht]
      symm
      apply head?_eq_some_of_min
      · exact ((List.pairwise_lt_range n).filter _).filter _
      · simp only [List.mem_filter, List.mem_range]
        exact ⟨⟨hb pos ht, ht⟩, by simp⟩
      · intro d hd
        have := (List.mem_filter.1 hd).2
        simpa using this
    · rw [if_neg ht, ih (pos + 1) (by omega)]
      congr 1
      apply List.filter_congr
      intro a ha
      have hat : t a = true := (List.mem_filter.1 ha).2
      have hne : a ≠ pos := by rintro rfl; exact ht hat
      rw [decide_eq_decide]
      omega

lemma indexOfFrom_eq_head? {line w : List Char} (hw : w ≠ []) (pos : Nat) :
    indexOfFrom line w pos =
      ((allOccs line w).filter (fun c => decide (pos ≤ c))).head? := by
  rw [indexOfFrom, allOccs]
  apply searchFrom_eq_head? (occursAtB line w) (line.length + 1 - w.length)
  · intro c hc
    have := occursAtB_length hw hc
    have hpos : 0 < w.length := List.length_pos.mpr hw
    omega
  · omega

/-! ## The greedy reference loop -/

lemma greedyPick_cons_of_lt {len x : Nat} {rest : List Nat} :
    ∀ fuel lo, x < lo →
      greedyPick len (x :: rest) lo fuel = greedyPick len rest lo fuel := by
  intro fuel
  induction fuel with
  | zero => intro lo _; rfl
  | succ fuel ih =>
    intro lo hx
    rw [greedyPick, greedyPick]
    have hfilter : (x :: rest).filter (fun c => decide (lo ≤ c)) =
        rest.filter (fun c => decide (lo ≤ c)) := by
      rw [List.filter_cons]
      have : ¬ (lo ≤ x) := by omega
      simp [this]
    rw [hfilter]
    cases hh : (rest.filter (fun c => decide (lo ≤ c))).head? with
    | none => rfl
    | some c =>
      have hc : c ∈ rest.filter (fun c => decide (lo ≤ c)) :=
        List.mem_of_mem_head? (by rw [hh]; rfl)
      have hlc : lo ≤ c := by simpa using (List.mem_filter.1 hc).2
      simp only []
      rw [ih (c + len) (by omega)]

lemma greedyPick_eq_nonOverlapSelect {len : Nat} (hlen : 1 ≤ len) :
    ∀ (xs : List Nat) (lo fuel : Nat), xs.length < fuel →
      greedyPick len xs lo fuel = nonOverlapSelect len xs lo := by
  intro xs
  induction xs with
  | nil =>
    intro lo fuel hfuel
    obtain ⟨f, rfl⟩ : ∃ f, fuel = f + 1 := ⟨fuel - 1, by omega⟩
    rw [greedyPick, nonOverlapSelect]
    rfl
  | cons x rest ih =>
    intro lo fuel hfuel
    obtain ⟨f, rfl⟩ : ∃ f, fuel = f + 1 := ⟨fuel - 1, by omega⟩
    by_cases hx : lo ≤ x
    · rw [greedyPick, nonOverlapSelect]
      have hfilter : (x :: rest).filter (fun c => decide (lo ≤ c)) =
          x :: rest.filter (fun c => decide (lo ≤ c)) := by
        rw [List.filter_cons]
        simp [hx]
      rw [hfilter, if_pos hx]
      simp only [List.head?_cons]
      rw [greedyPick_cons_of_lt f (x + len) (by omega),
        ih (x + len) f (by simpa using Nat.lt_of_succ_lt_succ hfuel)]
    · rw [greedyPick_cons_of_lt (f + 1) lo (by omega), nonOverlapSelect, if_neg hx,
        ih lo (f + 1) (by simp at hfuel ⊢; omega)]

lemma nonOverlapSelect_eq_self {len : Nat} :
    ∀ {xs : List Nat}, xs.Pairwise (fun a b => a + len ≤ b) →
      ∀ {lo : Nat}, (∀ x ∈ xs, lo ≤ x) → nonOverlapSelect len xs lo = xs := by
  intro xs
  induction xs with
  | nil => intro _ lo _; rfl
  | cons x rest ih =>
    intro hp lo hlo
    rw [nonOverlapSelect, if_pos (hlo x (List.mem_cons_self x rest))]
    rw [ih (List.pairwise_cons.1 hp).2
      (fun y hy => List.rel_of_pairwise_cons hp hy)]

/-! ## Characterization of the two substring matchers -/

lemma findAllTextHitsGo_eq_greedy {line w : List Char} (hw : w ≠ []) :
    ∀ fuel pos,
      findAllTextHitsGo line w pos fuel = greedyPick 1 (allOccs line w) pos fuel := by
  intro fuel
  induction fuel with
  | zero => intro pos; rfl
  | succ fuel ih =>
    intro pos
    rw [findAllTextHitsGo, greedyPick, ← indexOfFrom_eq_head? hw]
    by_cases hg : pos + w.length ≤ line.length
    · rw [if_pos hg]
      cases hio : indexOfFrom line w pos with
      | none => rfl
      | some c =>
        simp only []
        rw [ih]
    · rw [if_neg hg]
      have hnone : indexOfFrom line w pos = none := by
        rw [indexOfFrom_eq_head? hw]
        have hnil : (allOccs line w).filter (fun c => decide (pos ≤ c)) = [] := by
          rw [List.filter_eq_nil_iff]
          intro a ha
          have hocc := (mem_allOccs hw).1 ha
          have := occursAtB_length hw hocc
          simp only [decide_eq_true_eq]
          omega
        rw [hnil]
        rfl
      rw [hnone]

lemma scanTextHitsGo_eq_greedy {line w : List Char} (hw : w ≠ []) :
    ∀ fuel pos,
      scanTextHitsGo line w pos fuel = greedyPick w.length (allOccs line w) pos fuel := by
  intro fuel
  induction fuel with
  | zero => intro pos; rfl
  | succ fuel ih =>
    intro pos
    rw [scanTextHitsGo, greedyPick, ← indexOfFrom_eq_head? hw]
    cases hio : indexOfFrom line w pos with
    | none => rfl
    | some c =>
      simp only []
      rw [ih]

lemma findAllTextHits_eq_allOccs {line w : List Char} (hw : w ≠ []) :
    findAllTextHits line w = allOccs line w := by
  rw [findAllTextHits, if_neg (by simpa [List.isEmpty_iff] using hw),
    findAllTextHitsGo_eq_greedy hw,
    greedyPick_eq_nonOverlapSelect (le_refl 1) _ _ _ (allOccs_length_lt hw)]
  apply nonOverlapSelect_eq_self
  · exact (allOccs_pairwise line w).imp (fun h => by omega)
  · exact fun x _ => Nat.zero_le x

lemma scanTextHits_eq_select {line w : List Char} (hw : w ≠ []) :
    scanTextHits line w = nonOverlapSelect w.length (allOccs line w) 0 := by
  rw [scanTextHits, scanTextHitsGo_eq_greedy hw]
  exact greedyPick_eq_nonOverlapSelect (List.length_pos.mpr hw) _ _ _
    (allOccs_length_lt hw)

/-! ## Characterization of the two word matchers -/

lemma mem_validOccs {p : Char → Bool} {line w : List Char} (hw : w ≠ []) {c : Nat} :
    c ∈ validOccs p line w ↔
      occursAtB line w c = true ∧ boundaryOk p line w c = true := by
  simp only [validOccs, List.mem_filter]
  rw [mem_allOccs hw]

lemma validOccs_pairwise (p : Char → Bool) (line w : List Char) :
    (validOccs p line w).Pairwise (· < ·) :=
  (allOccs_pairwise line w).filter _

lemma validOccs_length_lt {p : Char → Bool} {line w : List Char} (hw : w ≠ []) :
    (validOccs p line w).length < line.length + 1 :=
  Nat.lt_of_le_of_lt (List.length_filter_le _ _) (allOccs_length_lt hw)

lemma isIdentCharDollar_of_noDollar {c : Char} (h : isIdentCharNoDollar c = true) :
    isIdentCharDollar c = true := by
  simp [isIdentCharDollar, h]

lemma pairwise_rel_of_lt {P : Nat → Nat → Prop} :
    ∀ {xs : List Nat}, xs.Pairwise P → xs.Pairwise (· < ·) →
      ∀ {a b : Nat}, a ∈ xs → b ∈ xs → a < b → P a b := by
  intro xs
  induction xs with
  | nil => intro _ _ a b ha; cases ha
  | cons x t ih =>
    intro hp hlt a b ha hb hab
    rcases List.mem_cons.1 ha with rfl | hat
    · rcases List.mem_cons.1 hb with rfl | hbt
      · omega
      · exact List.rel_of_pairwise_cons hp hbt
    · rcases List.mem_cons.1 hb with rfl | hbt
      · have := List.rel_of_pairwise_cons hlt hat
        omega
      · exact ih (List.pairwise_cons.1 hp).2 (List.pairwise_cons.1 hlt).2 hat hbt hab

/-- No valid occurrence can start inside or immediately after another one:
when every character of `w` lies in the boundary class `p`, the left-boundary
test of the later occurrence would look at a character of the earlier match. -/
lemma validOccs_gap {p : Char → Bool} {line w : List Char} (hw : w ≠ [])
    (hchars : ∀ ch ∈ w, p ch = true) :
    (validOccs p line w).Pairwise (fun a b => a + w.length < b) := by
  apply List.Pairwise.imp_of_mem ?_ (validOccs_pairwise p line w)
  intro a b ha hb hab
  by_contra hcon
  push_neg at hcon
  have hva := (mem_validOccs hw).1 ha
  have hvb := (mem_validOccs hw).1 hb
  have hwpos : 0 < w.length := List.length_pos.mpr hw
  have hi : b - 1 - a < w.length := by omega
  have hgd : line.getD (a + (b - 1 - a)) ' ' = w.getD (b - 1 - a) ' ' :=
    occursAtB_getD hva.1 hi ' '
  have hmem : w.getD (b - 1 - a) ' ' ∈ w := by
    rw [List.getD_eq_getElem?_getD, List.getElem?_eq_getElem hi]
    exact List.getElem_mem hi
  have hp : p (line.getD (b - 1) ' ') = true := by
    have hab' : a + (b - 1 - a) = b - 1 := by omega
    rw [← hab', hgd]
    exact hchars _ hmem
  have hlb : leftBoundaryOk p line b = true := by
    have hbd := hvb.2
    simp only [boundaryOk, Bool.and_eq_true] at hbd
    exact hbd.1
  have hb1 : b = (b - 1) + 1 := by omega
  rw [hb1, leftBoundaryOk, hp] at hlb
  simp at hlb

lemma validOccs_noDollar_eq (line w : List Char) :
    validOccs isIdentCharNoDollar line w =
      (List.range (line.length + 1 - w.length)).filter (scanWordAttemptAt line w) := by
  rw [validOccs, allOccs, List.filter_filter]
  apply List.filter_congr
  intro a _
  simp [scanWordAttemptAt, Bool.and_comm]

lemma scanWordSearchFrom_eq_head? {line w : List Char} (hw : w ≠ []) (pos : Nat) :
    searchFrom (scanWordAttemptAt line w) pos (line.length + 1 - pos) =
      ((validOccs isIdentCharNoDollar line w).filter
        (fun c => decide (pos ≤ c))).head? := by
  rw [validOccs_noDollar_eq]
  apply searchFrom_eq_head?
  · intro c hc
    have hocc : occursAtB line w c = true := by
      simp only [scanWordAttemptAt, Bool.and_eq_true] at hc
      exact hc.1
    have := occursAtB_length hw hocc
    have hpos : 0 < w.length := List.length_pos.mpr hw
    omega
  · omega

lemma scanWordHitsGo_eq_greedy {line w : List Char} (hw : w ≠ []) :
    ∀ fuel pos, scanWordHitsGo line w pos fuel =
      greedyPick w.length (validOccs isIdentCharNoDollar line w) pos fuel := by
  intro fuel
  induction fuel with
  | zero => intro pos; rfl
  | succ fuel ih =>
    intro pos
    rw [scanWordHitsGo, greedyPick, scanWordSearchFrom_eq_head? hw]
    cases hh : ((validOccs isIdentCharNoDollar line w).filter
        (fun c => decide (pos ≤ c))).head? with
    | none => rfl
    | some c =>
      simp only []
      rw [ih]

lemma scanWordHits_eq_validOccs {line w : List Char} (hw : w ≠ [])
    (hchars : ∀ ch ∈ w, isIdentCharNoDollar ch = true) :
    scanWordHits line w = validOccs isIdentCharNoDollar line w := by
  rw [scanWordHits, scanWordHitsGo_eq_greedy hw,
    greedyPick_eq_nonOverlapSelect (List.length_pos.mpr hw) _ _ _
      (validOccs_length_lt hw)]
  exact nonOverlapSelect_eq_self
    ((validOccs_gap hw hchars).imp (fun h => by omega))
    (fun x _ => Nat.zero_le x)

lemma wordAttemptAt_some {line w : List Char} {s c : Nat}
    (h : wordAttemptAt line w s = some c) :
    ((c = 0 ∧ s = 0) ∨
      (c = s + 1 ∧ (s = 0 → ¬(occursAtB line w 0 = true ∧
        boundaryOk isIdentCharDollar line w 0 = true)))) ∧
      occursAtB line w c = true ∧ boundaryOk isIdentCharDollar line w c = true := by
  rw [wordAttemptAt] at h
  split_ifs at h with h1 h2
  · simp only [Option.some.injEq] at h
    subst h
    simp only [Bool.and_eq_true, beq_iff_eq] at h1
    refine ⟨Or.inl ⟨rfl, h1.1.1⟩, h1.1.2, ?_⟩
    simp only [boundaryOk, leftBoundaryOk, Bool.true_and]
    exact h1.2
  · simp only [Option.some.injEq] at h
    subst h
    simp only [Bool.and_eq_true, Bool.not_eq_true', decide_eq_true_eq] at h2
    obtain ⟨⟨⟨hs_lt, hD⟩, hocc⟩, hrOk⟩ := h2
    refine ⟨Or.inr ⟨rfl, ?_⟩, hocc, ?_⟩
    · intro hs0 hcon
      apply h1
      simp only [Bool.and_eq_true, beq_iff_eq]
      have hbd := hcon.2
      simp only [boundaryOk, leftBoundaryOk, Bool.true_and] at hbd
      exact ⟨⟨hs0, hcon.1⟩, hbd⟩
    · simp only [boundaryOk, leftBoundaryOk, Bool.and_eq_true]
      exact ⟨by rw [hD]; rfl, hrOk⟩

lemma wordAttemptAt_none {line w : List Char} {s : Nat} (hw : w ≠ [])
    (h : wordAttemptAt line w s = none) :
    (s = 0 → ¬(occursAtB line w 0 = true ∧
      boundaryOk isIdentCharDollar line w 0 = true)) ∧
    ¬(occursAtB line w (s + 1) = true ∧
      boundaryOk isIdentCharDollar line w (s + 1) = true) := by
  rw [wordAttemptAt] at h
  split_ifs at h with h1 h2
  constructor
  · intro hs0 hcon
    apply h1
    simp only [Bool.and_eq_true, beq_iff_eq]
    have hbd := hcon.2
    simp only [boundaryOk, leftBoundaryOk, Bool.true_and] at hbd
    exact ⟨⟨hs0, hcon.1⟩, hbd⟩
  · intro hcon
    apply h2
    have hocc := hcon.1
    have hbd := hcon.2
    simp only [boundaryOk, leftBoundaryOk, Bool.and_eq_true] at hbd
    have hlen := occursAtB_length hw hocc
    have hwpos : 0 < w.length := List.length_pos.mpr hw
    simp only [Bool.and_eq_true, Bool.not_eq_true', decide_eq_true_eq]
    refine ⟨⟨⟨by omega, ?_⟩, hocc⟩, hbd.2⟩
    have := hbd.1
    simpa using this

lemma wordSearchFrom_eq_head? {line w : List Char} (hw : w ≠ []) :
    ∀ fuel pos, line.length + 1 ≤ pos + fuel →
      wordSearchFrom line w pos fuel =
        ((validOccs isIdentCharDollar line w).filter
          (fun c => decide (pos = 0 ∨ pos + 1 ≤ c))).head? := by
  intro fuel
  induction fuel with
  | zero =>
    intro pos hpos
    have hwpos : 0 < w.length := List.length_pos.mpr hw
    have hnil : (validOccs isIdentCharDollar line w).filter
        (fun c => decide (pos = 0 ∨ pos + 1 ≤ c)) = [] := by
      rw [List.filter_eq_nil_iff]
      intro a ha
      have hocc := ((mem_validOccs hw).1 ha).1
      have := occursAtB_length hw hocc
      simp only [decide_eq_true_eq]
      omega
    rw [wordSearchFrom, hnil]
    rfl
  | succ fuel ih =>
    intro pos hpos
    rw [wordSearchFrom]
    cases hatt : wordAttemptAt line w pos with
    | some c =>
      simp only []
      obtain ⟨hdisj, hocc, hbd⟩ := wordAttemptAt_some hatt
      symm
      apply head?_eq_some_of_min
      · exact (validOccs_pairwise _ line w).filter _
      · rw [List.mem_filter]
        refine ⟨(mem_validOccs hw).2 ⟨hocc, hbd⟩, ?_⟩
        simp only [decide_eq_true_eq]
        rcases hdisj with ⟨rfl, rfl⟩ | ⟨rfl, _⟩
        · exact Or.inl rfl
        · exact Or.inr (le_refl _)
      · intro d hd
        rw [List.mem_filter] at hd
        have hvd := (mem_validOccs hw).1 hd.1
        have hpred := hd.2
        simp only [decide_eq_true_eq] at hpred
        rcases hdisj with ⟨rfl, rfl⟩ | ⟨rfl, hfirst⟩
        · exact Nat.zero_le d
        · rcases hpred with rfl | hge
          · rcases Nat.eq_zero_or_pos d with rfl | hdpos
            · exact absurd hvd (hfirst rfl)
            · omega
          · exact hge
    | none =>
      simp only []
      obtain ⟨hf1, hf2⟩ := wordAttemptAt_none hw hatt
      rw [ih (pos + 1) (by omega)]
      congr 1
      apply List.filter_congr
      intro d hd
      have hvd := (mem_validOccs hw).1 hd
      have hd2 : d ≠ pos + 1 := by
        rintro rfl
        exact hf2 hvd
      rw [decide_eq_decide]
      rcases Nat.eq_zero_or_pos pos with rfl | hppos
      · have hd0 : d ≠ 0 := by
          rintro rfl
          exact hf1 rfl hvd
        omega
      · omega

lemma findAllWordHitsGo_eq_greedy {line w : List Char} (hw : w ≠ [])
    (hchars : ∀ ch ∈ w, isIdentCharNoDollar ch = true) :
    ∀ fuel pos,
      (pos = 0 ∨ ∀ b ∈ validOccs isIdentCharDollar line w, b ≠ pos) →
      findAllWordHitsGo line w pos fuel =
        greedyPick w.length (validOccs isIdentCharDollar line w) pos fuel := by
  have hcharsD : ∀ ch ∈ w, isIdentCharDollar ch = true :=
    fun ch hch => isIdentCharDollar_of_noDollar (hchars ch hch)
  have hgap : (validOccs isIdentCharDollar line w).Pairwise
      (fun a b => a + w.length < b) := validOccs_gap hw hcharsD
  have hsorted := validOccs_pairwise isIdentCharDollar line w
  have hwpos : 0 < w.length := List.length_pos.mpr hw
  intro fuel
  induction fuel with
  | zero => intro pos _; rfl
  | succ fuel ih =>
    intro pos hpos
    rw [findAllWordHitsGo, greedyPick,
      wordSearchFrom_eq_head? hw (line.length + 1 - pos) pos (by omega)]
    have hfilter : (validOccs isIdentCharDollar line w).filter
        (fun c => decide (pos = 0 ∨ pos + 1 ≤ c)) =
        (validOccs isIdentCharDollar line w).filter (fun c => decide (pos ≤ c)) := by
      apply List.filter_congr
      intro d hd
      rw [decide_eq_decide]
      rcases hpos with rfl | hne
      · omega
      · have := hne d hd
        omega
    rw [hfilter]
    cases hh : ((validOccs isIdentCharDollar line w).filter
        (fun c => decide (pos ≤ c))).head? with
    | none => rfl
    | some c =>
      simp only []
      have hcmem : c ∈ validOccs isIdentCharDollar line w := by
        have := List.mem_of_mem_head? (l := (validOccs isIdentCharDollar line w).filter
          (fun c => decide (pos ≤ c))) (by rw [hh]; rfl)
        exact (List.mem_filter.1 this).1
      rw [ih (c + w.length) (Or.inr ?_)]
      intro b hb hbc
      rcases Nat.lt_trichotomy b c with hlt | rfl | hgt
      · omega
      · omega
      · have := pairwise_rel_of_lt hgap hsorted hcmem hb hgt
        omega

lemma findAllWordHits_eq_validOccs {line w : List Char} (hw : w ≠ [])
    (hchars : ∀ ch ∈ w, isIdentCharNoDollar ch = true) :
    findAllWordHits line w = validOccs isIdentCharDollar line w := by
  have hcharsD : ∀ ch ∈ w, isIdentCharDollar ch = true :=
    fun ch hch => isIdentCharDollar_of_noDollar (hchars ch hch)
  rw [findAllWordHits, if_neg (by simpa [List.isEmpty_iff] using hw),
    findAllWordHitsGo_eq_greedy hw hchars _ 0 (Or.inl rfl),
    greedyPick_eq_nonOverlapSelect (List.length_pos.mpr hw) _ _ _
      (validOccs_length_lt hw)]
  exact nonOverlapSelect_eq_self
    ((validOccs_gap hw hcharsD).imp (fun h => by omega))
    (fun x _ => Nat.zero_le x)

/-! ## Word hits are occurrences, in increasing order (used for C10) -/

lemma findAllWordHitsGo_mem {line w : List Char} (hw : w ≠ []) :
    ∀ fuel pos x, x ∈ findAllWordHitsGo line w pos fuel →
      pos ≤ x ∧ occursAtB line w x = true := by
  intro fuel
  induction fuel with
  | zero => intro pos x hx; cases hx
  | succ fuel ih =>
    intro pos x hx
    rw [findAllWordHitsGo] at hx
    rw [wordSearchFrom_eq_head? hw (line.length + 1 - pos) pos (by omega)] at hx
    cases hh : ((validOccs isIdentCharDollar line w).filter
        (fun c => decide (pos = 0 ∨ pos + 1 ≤ c))).head? with
    | none => rw [hh] at hx; cases hx
    | some c =>
      rw [hh] at hx
      have hcmem : c ∈ (validOccs isIdentCharDollar line w).filter
          (fun c => decide (pos = 0 ∨ pos + 1 ≤ c)) :=
        List.mem_of_mem_head? (by rw [hh]; rfl)
      rw [List.mem_filter] at hcmem
      have hcocc := ((mem_validOccs hw).1 hcmem.1).1
      have hcpos : pos ≤ c := by
        have := hcmem.2
        simp only [decide_eq_true_eq] at this
        omega
      rcases List.mem_cons.1 hx with rfl | hxt
      · exact ⟨hcpos, hcocc⟩
      · have := ih (c + w.length) x hxt
        exact ⟨by omega, this.2⟩

lemma findAllWordHitsGo_pairwise {line w : List Char} (hw : w ≠ []) :
    ∀ fuel pos, (findAllWordHitsGo line w pos fuel).Pairwise (· < ·) := by
  have hwpos : 0 < w.length := List.length_pos.mpr hw
  intro fuel
  induction fuel with
  | zero => intro pos; exact List.Pairwise.nil
  | succ fuel ih =>
    intro pos
    rw [findAllWordHitsGo]
    cases hh : wordSearchFrom line w pos (line.length + 1 - pos) with
    | none => exact List.Pairwise.nil
    | some c =>
      simp only []
      rw [List.pairwise_cons]
      refine ⟨?_, ih (c + w.length)⟩
      intro x hx
      have := (findAllWordHitsGo_mem hw fuel (c + w.length) x hx).1
      omega

lemma sublist_of_subset_of_sorted :
    ∀ {xs ys : List Nat}, xs.Pairwise (· < ·) → ys.Pairwise (· < ·) →
      (∀ a ∈ xs, a ∈ ys) → xs.Sublist ys := by
  intro xs ys
  induction ys generalizing xs with
  | nil =>
    intro _ _ hsub
    cases xs with
    | nil => exact List.Sublist.slnil
    | cons a t => cases hsub a (List.mem_cons_self a t)
  | cons b ys ih =>
    intro hxs hys hsub
    cases xs with
    | nil => exact List.nil_sublist _
    | cons a t =>
      rcases List.mem_cons.1 (hsub a (List.mem_cons_self a t)) with rfl | hat
      · apply List.Sublist.cons₂
        apply ih (List.pairwise_cons.1 hxs).2 (List.pairwise_cons.1 hys).2
        intro x hx
        have hax : a < x := List.rel_of_pairwise_cons hxs hx
        rcases List.mem_cons.1 (hsub x (List.mem_cons_of_mem a hx)) with rfl | h2
        · omega
        · exact h2
      · have hba : b < a := List.rel_of_pairwise_cons hys hat
        apply List.Sublist.cons
        apply ih hxs (List.pairwise_cons.1 hys).2
        intro x hx
        rcases List.mem_cons.1 (hsub x hx) with rfl | h2
        · rcases List.mem_cons.1 hx with rfl | hxt
          · omega
          · have := List.rel_of_pairwise_cons hxs hxt
            omega
        · exact h2

/-! ## Claim theorems: line matching -/

/-- C1, counterexample: on line `"aaa"` with query `"aa"`, the standalone
matcher `findAllTextHits` returns the overlapping hits `[0, 1]`, but the
substring matching performed inside the file scanner (`processFile`, modelled
by `scanTextHits`) resumes at `i + len(Q)` and returns only `[0]`.  The
claim asserts both return all overlapping occurrences, so it is false. -/
theorem C1_counterexample :
    findAllTextHits "aaa".toList "aa".toList = [0, 1] ∧
    scanTextHits "aaa".toList "aa".toList = [0] ∧
    ([0] : List Nat) ≠ [0, 1] :=
  ⟨by decide, by decide, by decide⟩

/-- C1 (amended): for every line and non-empty query, the standalone matcher
`findAllTextHits` returns exactly the ascending list of all occurrence
columns, including overlapping ones (it resumes at `i + 1` after a hit),
while the substring matching inside the file scanner resumes at
`i + len(Q)` and therefore returns the greedy non-overlapping selection of
those occurrence columns. -/
theorem C1_amended (line w : List Char) (hw : w ≠ []) :
    findAllTextHits line w = allOccs line w ∧
    scanTextHits line w = nonOverlapSelect w.length (allOccs line w) 0 :=
  ⟨findAllTextHits_eq_allOccs hw, scanTextHits_eq_select hw⟩

theorem C1_amended_witness :
    findAllTextHits "aaa".toList "aa".toList = allOccs "aaa".toList "aa".toList ∧
    scanTextHits "aaa".toList "aa".toList =
      nonOverlapSelect "aa".toList.length (allOccs "aaa".toList "aa".toList) 0 :=
  C1_amended _ _ (by decide)

/-- C2, counterexample: the claim fails in two ways.  (1) The scanner's word
regex (`src/extension.ts` line 367) omits `$` from its boundary classes, so
on line `"$cat"` with query `"cat"` the standalone `findAllWordHits` rejects
the `$`-adjacent occurrence (returning `[]`) but the scanner's matcher
accepts it (returning `[1]`), contradicting "an occurrence directly adjacent
to a `$` character is rejected … for every word matcher the engine uses".
(2) For a query containing a non-identifier character, the exec loop misses
boundary-valid occurrences: on line `"a a a"` with query `"a a"`, the
occurrence at column 2 is not adjacent to any identifier character, yet
`findAllWordHits` returns only `[0]`, not `[0, 2]`. -/
theorem C2_counterexample :
    findAllWordHits "$cat".toList "cat".toList = [] ∧
    scanWordHits "$cat".toList "cat".toList = [1] ∧
    findAllWordHits "a a a".toList "a a".toList = [0] :=
  ⟨by decide, by decide, by decide⟩

/-- C2 (amended): for every line and every non-empty query consisting only
of alphanumeric or underscore characters, the standalone `findAllWordHits`
returns exactly the occurrences not immediately preceded or followed by a
character of the class `[A-Za-z0-9_$]` (in particular `$`-adjacent
occurrences are rejected), while the word matcher of the scanning path uses
the boundary class `[A-Za-z0-9_]` without `$` and thus returns exactly the
occurrences not adjacent to an alphanumeric or underscore character
(`$`-adjacent occurrences are accepted there). -/
theorem C2_amended (line w : List Char) (hw : w ≠ [])
    (hchars : ∀ ch ∈ w, isIdentCharNoDollar ch = true) :
    findAllWordHits line w = validOccs isIdentCharDollar line w ∧
    scanWordHits line w = validOccs isIdentCharNoDollar line w :=
  ⟨findAllWordHits_eq_validOccs hw hchars, scanWordHits_eq_validOccs hw hchars⟩

theorem C2_amended_witness :
    findAllWordHits "$cat cat".toList "cat".toList =
      validOccs isIdentCharDollar "$cat cat".toList "cat".toList ∧
    scanWordHits "$cat cat".toList "cat".toList =
      validOccs isIdentCharNoDollar "$cat cat".toList "cat".toList :=
  C2_amended _ _ (by decide) (by decide)

/-- C9: for every line, matching with the empty query returns the empty
list of columns, both in word mode (`findAllWordHits`) and in substring mode
(`findAllTextHits`); both functions are total, so no error is raised. -/
theorem C9_empty_query (line : List Char) :
    findAllWordHits line [] = [] ∧ findAllTextHits line [] = [] :=
  ⟨rfl, rfl⟩

/-- C10: for every line and non-empty query, the word-mode hit columns are a
subsequence of the substring-mode hit columns: every word hit is a literal
occurrence of the query, word hits are strictly increasing, and substring
mode returns all occurrence columns in ascending order. -/
theorem C10_word_hits_sublist_text_hits (line w : List Char) (hw : w ≠ []) :
    (findAllWordHits line w).Sublist (findAllTextHits line w) := by
  rw [findAllTextHits_eq_allOccs hw, findAllWordHits,
    if_neg (by simpa [List.isEmpty_iff] using hw)]
  apply sublist_of_subset_of_sorted (findAllWordHitsGo_pairwise hw _ _)
    (allOccs_pairwise _ _)
  intro a ha
  exact (mem_allOccs hw).2 (findAllWordHitsGo_mem hw _ _ a ha).2

theorem C10_witness :
    (findAllWordHits "concatenate cat catfish".toList "cat".toList).Sublist
      (findAllTextHits "concatenate cat catfish".toList "cat".toList) :=
  C10_word_hits_sublist_text_hits _ _ (by decide)

/-! ## Claim theorems: preview builder -/

lemma jsSlice_hit (line : List Char) (c l : Nat) :
    jsSlice line c (c + l) = (line.drop c).take l := by
  rw [jsSlice, List.drop_take]
  simp

lemma jsSlice_suffix (line : List Char) (c l : Nat) :
    jsSlice line (c + l) (min line.length (c + l + 40)) =
      (line.drop (c + l)).take 40 := by
  rw [jsSlice, List.drop_take, List.take_eq_take]
  simp only [List.length_drop]
  omega

/-- C7: `createPreview` is total (defined for every line, start column and
length, so it can never throw), and its result is exactly the hit substring
`line[startCol : startCol + len]` preceded by the up-to-40-character clipped
slice of the line before the hit and followed by the up-to-40-character
clipped slice after it. -/
theorem C7_preview_builder (line : List Char) (startCol len : Nat) :
    createPreview line startCol len =
      (line.take startCol).drop (startCol - 40) ++
        ((line.drop startCol).take len ++ (line.drop (startCol + len)).take 40) ∧
    ((line.take startCol).drop (startCol - 40)).length ≤ 40 ∧
    ((line.drop (startCol + len)).take 40).length ≤ 40 := by
  refine ⟨?_, ?_, ?_⟩
  · rw [createPreview, jsSlice_hit, jsSlice_suffix, jsSlice, List.append_assoc]
  · rw [List.length_drop, List.length_take]
    omega
  · exact List.length_take_le _ _

/-! ## Claim theorems: file categorization -/

lemma categorizeGo_spec {α : Type} (sizeOf : α → Nat) :
    ∀ (n : Nat) (files : List α), files.length ≤ n → ∀ (reg lg : List α),
      categorizeGo sizeOf files (reg, lg) =
        (reg ++ files.filter (fun u => decide (sizeOf u ≤ largeFileSizeThreshold)),
         lg ++ files.filter (fun u => decide (largeFileSizeThreshold < sizeOf u))) := by
  intro n
  induction n with
  | zero =>
    intro files hlen reg lg
    have hnil : files = [] := List.length_eq_zero.mp (Nat.le_zero.mp hlen)
    subst hnil
    rw [categorizeGo]
    simp
  | succ n ih =>
    intro files hlen reg lg
    rw [categorizeGo]
    by_cases hne : files.isEmpty
    · rw [if_pos hne]
      have hnil : files = [] := List.isEmpty_iff.mp hne
      subst hnil
      simp
    · rw [if_neg hne]
      have h0 : files.length ≠ 0 := by
        intro h
        exact hne (by simpa [List.isEmpty_iff, List.length_eq_zero] using h)
      rw [ih (files.drop 100) (by simp only [List.length_drop]; omega)]
      have hbatch : ∀ (q : Nat → Bool),
          (((files.take 100).map (fun u => (u, sizeOf u))).filter
            (fun p => q p.2)).map Prod.fst =
          (files.take 100).filter (fun u => q (sizeOf u)) := by
        intro q
        rw [List.filter_map, List.map_map]
        simp [Function.comp_def]
      rw [hbatch (fun v => !(decide (largeFileSizeThreshold < v))),
        hbatch (fun v => decide (largeFileSizeThreshold < v))]
      have hsplit : ∀ (q : α → Bool), files.filter q =
          (files.take 100).filter q ++ (files.drop 100).filter q := by
        intro q
        rw [← List.filter_append, List.take_append_drop]
      rw [hsplit (fun u => decide (sizeOf u ≤ largeFileSizeThreshold)),
        hsplit (fun u => decide (largeFileSizeThreshold < sizeOf u))]
      have hcong : (files.take 100).filter
          (fun u => !(decide (largeFileSizeThreshold < sizeOf u))) =
          (files.take 100).filter
            (fun u => decide (sizeOf u ≤ largeFileSizeThreshold)) := by
        apply List.filter_congr
        intro u _
        rw [← decide_not, decide_eq_decide]
        omega
      rw [hcong, List.append_assoc, List.append_assoc]

/-- C5: file categorization with a stat oracle (`stat u = none` models a
failed stat, whose size defaults to 0): the regular group is exactly the
input files with size `≤` the 1 MiB threshold in input order, the large
group exactly those with size `>` the threshold in input order, and the
files with failed stats form a sublist of the regular group (they are never
dropped and never classified large); `categorizeFiles` is total, so a stat
failure cannot abort the search. -/
theorem C5_categorize_files {α : Type} (stat : α → Option Nat) (files : List α) :
    categorizeFiles stat files =
      (files.filter (fun u => decide (statSize stat u ≤ largeFileSizeThreshold)),
       files.filter (fun u => decide (largeFileSizeThreshold < statSize stat u))) ∧
    (files.filter (fun u => (stat u).isNone)).Sublist (categorizeFiles stat files).1 := by
  have h := categorizeGo_spec (statSize stat) files.length files (le_refl _) [] []
  rw [categorizeFiles] at *
  constructor
  · rw [h]
    simp
  · rw [h]
    simp only [List.nil_append]
    have hsub : files.filter (fun u => (stat u).isNone) =
        (files.filter (fun u =>
          decide (statSize stat u ≤ largeFileSizeThreshold))).filter
            (fun u => (stat u).isNone) := by
      rw [List.filter_filter]
      apply List.filter_congr
      intro u _
      cases hs : stat u with
      | none => simp [statSize, hs]
      | some v => simp [hs]
    rw [hsub]
    exact List.filter_sublist _

/-! ## Claim theorems: symbol extraction -/

lemma collectSymbols_spec (exclude : List Char) :
    ∀ (ts acc : List (List Char)),
      collectSymbols exclude ts acc =
        acc ++ dedupKeepFirst (ts.filter (fun t =>
          decide (t ≠ exclude ∧ t ∉ JS_TS_KEYWORDS ∧ t ∉ acc))) := by
  intro ts
  induction ts with
  | nil =>
    intro acc
    rw [collectSymbols]
    simp [dedupKeepFirst]
  | cons t rest ih =>
    intro acc
    rw [collectSymbols]
    by_cases h1 : t = exclude
    · rw [if_pos h1]
      have hf : (t :: rest).filter (fun t =>
          decide (t ≠ exclude ∧ t ∉ JS_TS_KEYWORDS ∧ t ∉ acc)) =
          rest.filter (fun t =>
            decide (t ≠ exclude ∧ t ∉ JS_TS_KEYWORDS ∧ t ∉ acc)) := by
        simp [List.filter_cons, h1]
      rw [hf]
      exact ih acc
    · rw [if_neg h1]
      by_cases h2 : t ∈ JS_TS_KEYWORDS
      · rw [if_pos h2]
        have hf : (t :: rest).filter (fun t =>
            decide (t ≠ exclude ∧ t ∉ JS_TS_KEYWORDS ∧ t ∉ acc)) =
            rest.filter (fun t =>
              decide (t ≠ exclude ∧ t ∉ JS_TS_KEYWORDS ∧ t ∉ acc)) := by
          simp [List.filter_cons, h2]
        rw [hf]
        exact ih acc
      · rw [if_neg h2]
        by_cases h3 : t ∈ acc
        · rw [if_pos h3]
          have hf : (t :: rest).filter (fun t =>
              decide (t ≠ exclude ∧ t ∉ JS_TS_KEYWORDS ∧ t ∉ acc)) =
              rest.filter (fun t =>
                decide (t ≠ exclude ∧ t ∉ JS_TS_KEYWORDS ∧ t ∉ acc)) := by
            simp [List.filter_cons, h3]
          rw [hf]
          exact ih acc
        · rw [if_neg h3, ih (acc ++ [t])]
          have hf : (t :: rest).filter (fun t =>
              decide (t ≠ exclude ∧ t ∉ JS_TS_KEYWORDS ∧ t ∉ acc)) =
              t :: rest.filter (fun t =>
                decide (t ≠ exclude ∧ t ∉ JS_TS_KEYWORDS ∧ t ∉ acc)) := by
            simp [List.filter_cons, h1, h2, h3]
          rw [hf, dedupKeepFirst]
          have hff : (rest.filter (fun t =>
              decide (t ≠ exclude ∧ t ∉ JS_TS_KEYWORDS ∧ t ∉ acc))).filter
                (fun y => decide (y ≠ t)) =
              rest.filter (fun x =>
                decide (x ≠ exclude ∧ x ∉ JS_TS_KEYWORDS ∧ x ∉ acc ++ [t])) := by
            rw [List.filter_filter]
            apply List.filter_congr
            intro x _
            rw [← Bool.decide_and, decide_eq_decide, List.mem_append, List.mem_singleton]
            tauto
          rw [hff]
          simp [List.append_assoc]

lemma mem_dedupKeepFirst {α : Type} [DecidableEq α] :
    ∀ (n : Nat) (l : List α), l.length ≤ n → ∀ a ∈ dedupKeepFirst l, a ∈ l := by
  intro n
  induction n with
  | zero =>
    intro l hl a ha
    have hnil : l = [] := List.length_eq_zero.mp (Nat.le_zero.mp hl)
    subst hnil
    rw [dedupKeepFirst] at ha
    cases ha
  | succ n ih =>
    intro l hl a ha
    cases l with
    | nil =>
      rw [dedupKeepFirst] at ha
      cases ha
    | cons x xs =>
      rw [dedupKeepFirst] at ha
      rcases List.mem_cons.1 ha with rfl | h2
      · exact List.mem_cons_self _ _
      · have hlen : (xs.filter (fun y => decide (y ≠ x))).length ≤ n :=
          Nat.le_trans (List.length_filter_le _ _) (by simpa using hl)
        have := ih _ hlen a h2
        exact List.mem_cons_of_mem _ (List.mem_of_mem_filter this)

lemma nodup_dedupKeepFirst {α : Type} [DecidableEq α] :
    ∀ (n : Nat) (l : List α), l.length ≤ n → (dedupKeepFirst l).Nodup := by
  intro n
  induction n with
  | zero =>
    intro l hl
    have hnil : l = [] := List.length_eq_zero.mp (Nat.le_zero.mp hl)
    subst hnil
    rw [dedupKeepFirst]
    exact List.nodup_nil
  | succ n ih =>
    intro l hl
    cases l with
    | nil =>
      rw [dedupKeepFirst]
      exact List.nodup_nil
    | cons x xs =>
      rw [dedupKeepFirst, List.nodup_cons]
      have hlen : (xs.filter (fun y => decide (y ≠ x))).length ≤ n :=
        Nat.le_trans (List.length_filter_le _ _) (by simpa using hl)
      refine ⟨?_, ih _ hlen⟩
      intro hmem
      have := mem_dedupKeepFirst _ _ (le_refl _) x hmem
      have := (List.mem_filter.1 this).2
      simp at this

lemma tokenizeIdents_shape :
    ∀ (n : Nat) (l : List Char), l.length ≤ n → ∀ t ∈ tokenizeIdents l,
      ∃ c cs, t = c :: cs ∧ isIdentStartChar c = true ∧
        ∀ ch ∈ cs, isIdentCharDollar ch = true := by
  intro n
  induction n with
  | zero =>
    intro l hl t ht
    have hnil : l = [] := List.length_eq_zero.mp (Nat.le_zero.mp hl)
    subst hnil
    rw [tokenizeIdents] at ht
    cases ht
  | succ n ih =>
    intro l hl t ht
    cases l with
    | nil =>
      rw [tokenizeIdents] at ht
      cases ht
    | cons c rest =>
      rw [tokenizeIdents] at ht
      by_cases hc : isIdentStartChar c = true
      · rw [if_pos hc] at ht
        rcases List.mem_cons.1 ht with rfl | h2
        · exact ⟨c, rest.takeWhile isIdentCharDollar, rfl, hc,
            fun ch hch => List.mem_takeWhile_imp hch⟩
        · have hlen : (rest.dropWhile isIdentCharDollar).length ≤ n :=
            Nat.le_trans (List.dropWhile_sublist _).length_le (by simpa using hl)
          exact ih _ hlen t h2
      · rw [if_neg hc] at ht
        exact ih rest (by simpa using hl) t ht

/-- C6: `extractSymbolsFromLine` equals the pipeline "tokenize into maximal
identifier runs, drop the excluded token (exact comparison) and the fixed
keyword list, deduplicate keeping first occurrences, truncate to 20"; its
output has no duplicates, has at most 20 entries, and every returned token
is a nonempty identifier run (start character in `[A-Za-z_$]`, continuation
characters in `[A-Za-z0-9_$]`) different from the excluded token and from
every keyword. -/
theorem C6_extract_symbols (line exclude : List Char) :
    extractSymbolsFromLine line exclude =
      (dedupKeepFirst ((tokenizeIdents line).filter
        (fun t => decide (t ≠ exclude ∧ t ∉ JS_TS_KEYWORDS)))).take 20 ∧
    (extractSymbolsFromLine line exclude).Nodup ∧
    (extractSymbolsFromLine line exclude).length ≤ 20 ∧
    ∀ t ∈ extractSymbolsFromLine line exclude,
      t ≠ exclude ∧ t ∉ JS_TS_KEYWORDS ∧
        ∃ c cs, t = c :: cs ∧ isIdentStartChar c = true ∧
          ∀ ch ∈ cs, isIdentCharDollar ch = true := by
  have hpipe : extractSymbolsFromLine line exclude =
      (dedupKeepFirst ((tokenizeIdents line).filter
        (fun t => decide (t ≠ exclude ∧ t ∉ JS_TS_KEYWORDS)))).take 20 := by
    rw [extractSymbolsFromLine, collectSymbols_spec]
    simp only [List.nil_append]
    congr 2
    apply List.filter_congr
    intro t _
    rw [decide_eq_decide]
    simp
  refine ⟨hpipe, ?_, ?_, ?_⟩
  · rw [hpipe]
    exact (List.take_sublist _ _).nodup (nodup_dedupKeepFirst _ _ (le_refl _))
  · rw [hpipe]
    exact List.length_take_le _ _
  · intro t ht
    rw [hpipe] at ht
    have h1 := (List.take_sublist _ _).subset ht
    have h2 := mem_dedupKeepFirst _ _ (le_refl _) t h1
    have h3 := List.mem_filter.1 h2
    have h4 : t ≠ exclude ∧ t ∉ JS_TS_KEYWORDS := by simpa using h3.2
    refine ⟨h4.1, h4.2, ?_⟩
    exact tokenizeIdents_shape _ _ (le_refl _) t h3.1

/-! ## Claim theorems: streaming aggregation and deduplication -/

lemma flatten_insertByFile (bf : List (String × List RefNode)) (n : RefNode) :
    (((insertByFile bf n).map Prod.snd).flatten).Perm
      (n :: (bf.map Prod.snd).flatten) := by
  induction bf with
  | nil => simp [insertByFile]
  | cons p rest ih =>
    obtain ⟨f, arr⟩ := p
    rw [insertByFile]
    by_cases hf : f = n.file
    · rw [if_pos hf]
      simp only [List.map_cons, List.flatten_cons]
      have harr : (arr ++ [n]) ++ (rest.map Prod.snd).flatten =
          arr ++ n :: (rest.map Prod.snd).flatten := by simp
      rw [harr]
      exact List.perm_middle
    · rw [if_neg hf]
      simp only [List.map_cons, List.flatten_cons]
      exact (List.Perm.append_left arr ih).trans List.perm_middle

lemma aggAddHits_invariant :
    ∀ (hits : List RefNode) (st : AggState),
      st.seen.Nodup → ((finalLines st).map refKey).Perm st.seen →
      ((hits.foldl aggAddHit st).seen.Nodup ∧
        ((finalLines (hits.foldl aggAddHit st)).map refKey).Perm
          (hits.foldl aggAddHit st).seen ∧
        ∀ k, k ∈ (hits.foldl aggAddHit st).seen ↔
          k ∈ st.seen ∨ k ∈ hits.map refKey) := by
  intro hits
  induction hits with
  | nil =>
    intro st h1 h2
    exact ⟨h1, h2, fun k => by simp⟩
  | cons n rest ih =>
    intro st h1 h2
    rw [List.foldl_cons]
    by_cases hn : refKey n ∈ st.seen
    · have hst : aggAddHit st n = st := by rw [aggAddHit, if_pos hn]
      rw [hst]
      obtain ⟨g1, g2, g3⟩ := ih st h1 h2
      refine ⟨g1, g2, fun k => ?_⟩
      rw [g3 k]
      simp only [List.map_cons, List.mem_cons]
      constructor
      · rintro (hk | hk)
        · exact Or.inl hk
        · exact Or.inr (Or.inr hk)
      · rintro (hk | rfl | hk)
        · exact Or.inl hk
        · exact Or.inl hn
        · exact Or.inr hk
    · have hst : aggAddHit st n =
          ⟨refKey n :: st.seen, insertByFile st.byFile n⟩ := by
        rw [aggAddHit, if_neg hn]
      rw [hst]
      have h1' : (refKey n :: st.seen).Nodup := List.nodup_cons.2 ⟨hn, h1⟩
      have h2' : ((finalLines ⟨refKey n :: st.seen,
          insertByFile st.byFile n⟩).map refKey).Perm (refKey n :: st.seen) := by
        have hp := List.Perm.map refKey (flatten_insertByFile st.byFile n)
        refine hp.trans ?_
        simp only [List.map_cons]
        exact h2.cons _
      obtain ⟨g1, g2, g3⟩ := ih _ h1' h2'
      refine ⟨g1, g2, fun k => ?_⟩
      rw [g3 k]
      simp only [List.mem_cons, List.map_cons]
      tauto

lemma aggRun_eq_foldl_hits :
    ∀ (batches : List (List RefNode)) (st : AggState),
      batches.foldl aggAddBatch st = (batches.flatten).foldl aggAddHit st := by
  intro batches
  induction batches with
  | nil => intro st; rfl
  | cons b rest ih =>
    intro st
    rw [List.foldl_cons, List.flatten_cons, List.foldl_append, ih]
    rfl

/-- C3: within one request — an arbitrary sequence of delivered batches —
the final result list contains no two hits with the same
`(file, line, column)` identity key, and a key appears in the final result
iff some delivered hit carried it: duplicate keys arising from overlapping
scan passes collapse to the first-seen hit. -/
theorem C3_identity_key_unique (batches : List (List RefNode)) :
    ((finalLines (aggRun batches)).map refKey).Nodup ∧
    ∀ k, k ∈ (finalLines (aggRun batches)).map refKey ↔
      k ∈ (batches.flatten).map refKey := by
  rw [aggRun, aggRun_eq_foldl_hits]
  obtain ⟨g1, g2, g3⟩ := aggAddHits_invariant (batches.flatten) ⟨[], []⟩
    List.nodup_nil (by simp [finalLines])
  refine ⟨g2.nodup_iff.2 g1, fun k => ?_⟩
  rw [g2.mem_iff, g3 k]
  simp

/-! ## Claim theorems: per-file error isolation -/

lemma processFileGroup_eq_flatten (readFile : String → Option (List Char))
    (mode : MatchMode) (symbol : List Char) (maxLines : Nat) :
    ∀ files : List String,
      processFileGroup readFile mode symbol maxLines files =
        (files.map (processFile readFile mode symbol maxLines)).flatten := by
  intro files
  induction files with
  | nil => rfl
  | cons u rest ih =>
    rw [processFileGroup, ih]
    simp

/-- C8: a failed read of one file (`readFile u = none`, the caught
`try`/`catch` in `processFile`) makes that file contribute the empty batch,
and the group's result is the concatenation of every file's independently
computed batch — so one file's read failure never terminates the group or
the request, and all other files are still scanned. -/
theorem C8_read_failure_isolated (readFile : String → Option (List Char))
    (mode : MatchMode) (symbol : List Char) (maxLines : Nat)
    (files : List String) (u : String) (hu : readFile u = none) :
    processFile readFile mode symbol maxLines u = [] ∧
    processFileGroup readFile mode symbol maxLines files =
      (files.map (processFile readFile mode symbol maxLines)).flatten := by
  constructor
  · rw [processFile, hu]
  · exact processFileGroup_eq_flatten readFile mode symbol maxLines files

theorem C8_witness :
    processFile (fun u => if u = "bad" then none else some ['x'])
      MatchMode.text ['x'] 10 "bad" = [] ∧
    processFileGroup (fun u => if u = "bad" then none else some ['x'])
        MatchMode.text ['x'] 10 ["good", "bad"] =
      ((["good", "bad"].map (processFile
        (fun u => if u = "bad" then none else some ['x'])
        MatchMode.text ['x'] 10))).flatten :=
  C8_read_failure_isolated _ _ _ _ _ _ (by decide)

/-! ## Claim theorems: cancellation -/

/-- C4: with the cancellation flag set exactly from the deadline `T` onward
(`fun t => decide (T ≤ t)`: monotone, set by the timeout), every claim event
`(fileIdx, claimTime, batch)` of the worker loop has `claimTime < T` — once
the flag is set, no worker claims a new file index.  Every claim event
carries the complete batch of its claimed file, so the file in flight when
the deadline fires still delivers its batch; scanning a file advances the
time by one unit, so the loop runs past the deadline by at most that single
in-flight file.  This holds for every elapsed-time guard, group, start
index, start time and fuel. -/
theorem C4_no_claims_after_deadline {α β : Type} (T : Nat)
    (elapsedOver : Nat → Bool) (scanFile : α → β) (group : List α) :
    ∀ (fuel idx t0 : Nat),
      ∀ e ∈ workerLoop (fun t => decide (T ≤ t)) elapsedOver scanFile group
        idx t0 fuel,
      e.2.1 < T ∧
        ∃ h : e.1 < group.length, e.2.2 = scanFile (group.get ⟨e.1, h⟩) := by
  intro fuel
  induction fuel with
  | zero =>
    intro idx t0 e he
    cases he
  | succ fuel ih =>
    intro idx t0 e he
    rw [workerLoop] at he
    by_cases hc : T ≤ t0
    · rw [if_pos (by simpa using hc)] at he
      cases he
    · rw [if_neg (by simpa using hc)] at he
      by_cases hidx : idx < group.length
      · rw [dif_pos hidx] at he
        rcases List.mem_cons.1 he with rfl | h2
        · exact ⟨show t0 < T by omega, hidx, rfl⟩
        · by_cases hel : elapsedOver (t0 + 1) = true
          · rw [if_pos hel] at h2
            cases h2
          · rw [if_neg hel] at h2
            exact ih (idx + 1) (t0 + 1) e h2
      · rw [dif_neg hidx] at he
        cases he

theorem C4_witness :
    ((1, 1, 21) : Nat × Nat × Nat).2.1 < 2 ∧
    ∃ h : ((1, 1, 21) : Nat × Nat × Nat).1 < ([10, 20, 30] : List Nat).length,
      ((1, 1, 21) : Nat × Nat × Nat).2.2 =
        (fun x => x + 1) (([10, 20, 30] : List Nat).get ⟨(1, 1, 21).1, h⟩) :=
  C4_no_claims_after_deadline 2 (fun _ => false) (fun x => x + 1) [10, 20, 30]
    5 0 0 (1, 1, 21) (by decide)

end CodeExplorer
